import Mathlib

/-!
Shallow embedding of the `english_quotes` egui application
(`src/egui/eq_app.rs`) and of the quote-database core it calls into.

The repository ships only `src/egui/eq_app.rs`; the crate modules it
imports (`db.rs` with `add_quote_to_db` / `read_db` / `remove_quote` /
`sort_list`, `quote.rs` with `Quote` / `ALL_PERMS`, and the `utility`
module with `get_chosen_types` / `reverse_chosen_types`) are not in the
source tree.  Their definitions below are modelled from the
specification; each carries a doc comment saying so.  Everything taken
from `eq_app.rs` is embedded directly from that file.
-/

namespace EnglishQuotes

/-- Embeds `Quote(pub String, pub Vec<String>)` from `quote.rs`: field
`text` is the tuple field `.0` (the quote body), `cats` is `.1` (the
category tags). -/
structure Quote where
  text : String
  cats : List String
deriving DecidableEq

/-- Modelled from the spec: the fixed, ordered, closed category list
`ALL_PERMS` of `quote.rs` is not under `src/`; §3/§4.1 require a fixed
enumerable constant list and the §8 scenario names the categories
"Wisdom" and "Motivation". -/
def ALL_PERMS : List String := ["Wisdom", "Motivation"]

theorem ALL_PERMS_nodup : ALL_PERMS.Nodup := by decide

/-- Modelled from the spec: `get_chosen_types` (in `crate::utility`,
not under `src/`) is §4.1 `to_category_set`: for each true slot of the
selection vector, include the corresponding category of `ALL_PERMS`. -/
def getChosenTypes (checked : List Bool) : List String :=
  ((ALL_PERMS.zip checked).filter fun p => p.2).map fun p => p.1

/-- Modelled from the spec: `reverse_chosen_types` (in `crate::utility`,
not under `src/`) is §4.1 `to_selection`: for each category in
`ALL_PERMS` order, true iff it is present in the input set. -/
def reverseChosenTypes (cats : List String) : List Bool :=
  ALL_PERMS.map fun c => cats.contains c

/-! ### Lexicographic comparison

Executable strict lexicographic comparison on lists, parametrised by a
strict comparison on elements.  It models the derived `Ord` instances
Rust uses for `String` / `Vec<String>` (code-point, then element-wise,
lexicographic order). -/

/-- Strict lexicographic order on lists over a strict element order. -/
def lexLtB {α : Type} (ltB : α → α → Bool) : List α → List α → Bool
  | [], [] => false
  | [], _ :: _ => true
  | _ :: _, [] => false
  | a :: as, b :: bs =>
    if ltB a b then true else if ltB b a then false else lexLtB ltB as bs

theorem lexLtB_asym {α : Type} {ltB : α → α → Bool}
    (hasym : ∀ a b, ltB a b = true → ltB b a = false) :
    ∀ as bs, lexLtB ltB as bs = true → lexLtB ltB bs as = false
  | [], [], h => by simp [lexLtB] at h
  | [], _ :: _, _ => by simp [lexLtB]
  | _ :: _, [], h => by simp [lexLtB] at h
  | a :: as, b :: bs, h => by
    simp only [lexLtB] at h ⊢
    by_cases hab : ltB a b = true
    · simp [hab, hasym a b hab]
    · by_cases hba : ltB b a = true
      · simp [hab, hba] at h
      · simp only [Bool.not_eq_true] at hab hba
        simp only [hab, hba, if_false] at h ⊢
        exact lexLtB_asym hasym as bs h

theorem lexLtB_trans {α : Type} {ltB : α → α → Bool}
    (htrans : ∀ a b c, ltB a b = true → ltB b c = true → ltB a c = true)
    (hconn : ∀ a b, ltB a b = false → ltB b a = false → a = b) :
    ∀ as bs cs, lexLtB ltB as bs = true → lexLtB ltB bs cs = true →
      lexLtB ltB as cs = true
  | [], [], _, h, _ => by simp [lexLtB] at h
  | [], _ :: _, [], _, h => by simp [lexLtB] at h
  | [], _ :: _, _ :: _, _, _ => by simp [lexLtB]
  | _ :: _, [], _, h, _ => by simp [lexLtB] at h
  | _ :: _, _ :: _, [], _, h => by simp [lexLtB] at h
  | a :: as, b :: bs, c :: cs, h₁, h₂ => by
    simp only [lexLtB] at h₁ h₂ ⊢
    by_cases hab : ltB a b = true
    · by_cases hbc : ltB b c = true
      · simp [htrans a b c hab hbc]
      · by_cases hcb : ltB c b = true
        · simp [hbc, hcb] at h₂
        · simp only [Bool.not_eq_true] at hbc hcb
          have hbceq : b = c := hconn b c hbc hcb
          subst hbceq
          simp [hab]
    · by_cases hba : ltB b a = true
      · simp [hab, hba] at h₁
      · simp only [Bool.not_eq_true] at hab hba
        have habeq : a = b := hconn a b hab hba
        subst habeq
        simp only [hab, hba, if_false] at h₁
        by_cases hac : ltB a c = true
        · simp [hac]
        · by_cases hca : ltB c a = true
          · simp [hac, hca] at h₂
          · simp only [Bool.not_eq_true] at hac hca
            simp only [hac, hca, if_false] at h₂ ⊢
            exact lexLtB_trans htrans hconn as bs cs h₁ h₂

theorem lexLtB_conn {α : Type} {ltB : α → α → Bool}
    (hconn : ∀ a b, ltB a b = false → ltB b a = false → a = b) :
    ∀ as bs, lexLtB ltB as bs = false → lexLtB ltB bs as = false → as = bs
  | [], [], _, _ => rfl
  | [], _ :: _, h, _ => by simp [lexLtB] at h
  | _ :: _, [], _, h => by simp [lexLtB] at h
  | a :: as, b :: bs, h₁, h₂ => by
    simp only [lexLtB] at h₁ h₂
    by_cases hab : ltB a b = true
    · simp [hab] at h₁
    · by_cases hba : ltB b a = true
      · simp [hba, hab] at h₂
      · simp only [Bool.not_eq_true] at hab hba
        have habeq : a = b := hconn a b hab hba
        simp only [hab, hba, if_false] at h₁ h₂
        exact habeq ▸ congrArg (a :: ·) (lexLtB_conn hconn as bs h₁ h₂)

/-- Strict code-point order on characters (Rust `char` `Ord`). -/
def charLtB (a b : Char) : Bool := a.toNat < b.toNat

theorem charLtB_asym (a b : Char) (h : charLtB a b = true) : charLtB b a = false := by
  simp only [charLtB, decide_eq_true_eq, decide_eq_false_iff_not] at h ⊢
  omega

theorem charLtB_trans (a b c : Char) (h₁ : charLtB a b = true)
    (h₂ : charLtB b c = true) : charLtB a c = true := by
  simp only [charLtB, decide_eq_true_eq] at h₁ h₂ ⊢
  omega

theorem charLtB_conn (a b : Char) (h₁ : charLtB a b = false)
    (h₂ : charLtB b a = false) : a = b := by
  simp only [charLtB, decide_eq_false_iff_not] at h₁ h₂
  have : a.toNat = b.toNat := by omega
  exact Char.ext (UInt32.toNat.inj this)

/-- Strict order on strings: lexicographic by code point (Rust
`String` `Ord`). -/
def strLtB (a b : String) : Bool := lexLtB charLtB a.data b.data

theorem strLtB_asym (a b : String) (h : strLtB a b = true) : strLtB b a = false :=
  lexLtB_asym charLtB_asym _ _ h

theorem strLtB_trans (a b c : String) (h₁ : strLtB a b = true)
    (h₂ : strLtB b c = true) : strLtB a c = true :=
  lexLtB_trans charLtB_trans charLtB_conn _ _ _ h₁ h₂

theorem strLtB_conn (a b : String) (h₁ : strLtB a b = false)
    (h₂ : strLtB b a = false) : a = b := by
  cases a; cases b
  exact congrArg String.mk (lexLtB_conn charLtB_conn _ _ h₁ h₂)

/-- Modelled from the spec: the canonical strict order used by
`sort_list` (`db.rs`, not under `src/`): §4.2 Sort reorders
"lexicographic by quote text, ties broken by category-set comparison".
The key `text :: cats` realises exactly that tie-breaking. -/
def quoteLtB (a b : Quote) : Bool :=
  lexLtB strLtB (a.text :: a.cats) (b.text :: b.cats)

theorem quoteLtB_asym (a b : Quote) (h : quoteLtB a b = true) : quoteLtB b a = false :=
  lexLtB_asym strLtB_asym _ _ h

theorem quoteLtB_trans (a b c : Quote) (h₁ : quoteLtB a b = true)
    (h₂ : quoteLtB b c = true) : quoteLtB a c = true :=
  lexLtB_trans strLtB_trans strLtB_conn _ _ _ h₁ h₂

theorem quoteLtB_conn (a b : Quote) (h₁ : quoteLtB a b = false)
    (h₂ : quoteLtB b a = false) : a = b := by
  have h := lexLtB_conn strLtB_conn _ _ h₁ h₂
  cases a; cases b
  simp only [List.cons.injEq] at h
  simp [h.1, h.2]

/-- The canonical (non-strict) order on quotes: `a ≤ b` iff `b` is not
strictly below `a`. -/
def quoteLe (a b : Quote) : Prop := quoteLtB b a = false

instance : DecidableRel quoteLe := fun a b => by
  unfold quoteLe; infer_instance

instance : IsTotal Quote quoteLe := by
  constructor
  intro a b
  cases h : quoteLtB b a with
  | false => exact Or.inl h
  | true => exact Or.inr (quoteLtB_asym b a h)

instance : IsTrans Quote quoteLe := by
  constructor
  intro a b c hab hbc
  unfold quoteLe at hab hbc ⊢
  cases hca : quoteLtB c a with
  | false => rfl
  | true =>
    cases hbcb : quoteLtB b c with
    | false =>
      have hbceq : c = b := quoteLtB_conn c b hbc hbcb
      rw [hbceq] at hca
      rw [hca] at hab; cases hab
    | true =>
      have := quoteLtB_trans b c a hbcb hca
      rw [this] at hab; cases hab

/-- Modelled from the spec: `sort_list` (`db.rs`, not under `src/`)
reorders the collection into the canonical order (§4.2).  The spec's
normative Sort contract is a pure reorder; dedup is explicitly left
open (§9), so none is performed. -/
def sortList (db : List Quote) : List Quote :=
  db.insertionSort quoteLe

/-- Modelled from the spec: `add_quote_to_db` (`db.rs`, not under
`src/`): §4.2 Add "appends `quote` to the end of the collection"; no
dedup at add-time. -/
def addQuoteToDb (q : Quote) (db : List Quote) : List Quote :=
  db ++ [q]

/-- Modelled from the spec: `remove_quote` (`db.rs`, not under `src/`):
§4.2 Remove deletes "the first structurally-equal element found (by
text+categories equality)", a silent no-op when no match exists. -/
def removeQuote (q : Quote) (db : List Quote) : List Quote :=
  match db with
  | [] => []
  | x :: xs => if x = q then xs else x :: removeQuote q xs

/-- Embeds Rust `str::trim` as used at `eq_app.rs:143`
(`current_text.clone().trim().to_string()`): removes leading and
trailing whitespace from the character sequence. -/
def rustTrim (s : String) : String :=
  ⟨((s.data.dropWhile Char.isWhitespace).reverse.dropWhile
      Char.isWhitespace).reverse⟩

/-- Embeds Rust `str::contains` as used at `eq_app.rs:180`
(`qu.0.contains(current_search_term)`): `pat` occurs as a contiguous,
case-sensitive substring of the haystack. -/
def strContainsB (pat : List Char) : List Char → Bool
  | [] => pat.isPrefixOf []
  | c :: t => pat.isPrefixOf (c :: t) || strContainsB pat t

/-! ### The filter closures of `eq_app.rs` -/

/-- Embeds the `works` flag loop of the QuoteCategories filter closure
(`eq_app.rs:112-123`): walk `chosen_types`, set `works` on the first
type contained in `quote.1`. -/
def worksLoop (q : Quote) : List String → Bool
  | [] => false
  | t :: ts => if q.cats.contains t then true else worksLoop q ts

/-- Embeds the QuoteCategories view (`eq_app.rs:109-123`): the database
filtered by the `works` closure over the chosen category types. -/
def filterByCategories (db : List Quote) (wanted : List String) : List Quote :=
  db.filter fun q => worksLoop q wanted

/-- Embeds the Search view (`eq_app.rs:174-184`): the database filtered
by `qu.0.contains(current_search_term)`. -/
def searchQuotes (db : List Quote) (term : String) : List Quote :=
  db.filter fun q => strContainsB term.data q.text.data

/-- Embeds the QuoteEntry Submit handler (`eq_app.rs:142-157`): trim
the entered text, read the chosen types off the checkbox vector, append
the new quote, then sort the list. -/
def submitQuote (currentText : String) (checked : List Bool)
    (db : List Quote) : List Quote :=
  sortList (addQuoteToDb
    (Quote.mk (rustTrim currentText) (getChosenTypes checked)) db)

/-! ### Persistence

`read_db` (`db.rs`) and the serde_json serialization are not under
`src/`; the spec (§4.2 Load, §6, §7) describes a field-tagged
interchange format that deserializes back to the quote sequence, with
missing/unreadable/malformed files recovered as an empty database.  The
byte stream is modelled as a token stream. -/

/-- Modelled from the spec: one token of the serialized interchange
format (§6): a string datum or a length. -/
inductive Tok where
  | str (v : String)
  | num (v : Nat)
deriving DecidableEq

/-- Serialization of one quote: its text, then its category count,
then its categories. -/
def encQuote (q : Quote) : List Tok :=
  Tok.str q.text :: Tok.num q.cats.length :: q.cats.map Tok.str

/-- Modelled from the spec: `serde_json::to_vec` on the quote list
(`eq_app.rs:210`): the length-prefixed stream of encoded quotes. -/
def encodeDb (db : List Quote) : List Tok :=
  Tok.num db.length :: (db.map encQuote).flatten

/-- Decodes `n` string tokens, returning them and the remaining
stream. -/
def decStrings : Nat → List Tok → Option (List String × List Tok)
  | 0, ts => some ([], ts)
  | n + 1, Tok.str s :: ts =>
    match decStrings n ts with
    | some (ss, rest) => some (s :: ss, rest)
    | none => none
  | _ + 1, _ => none

/-- Decodes `n` quotes, returning them and the remaining stream. -/
def decQuotes : Nat → List Tok → Option (List Quote × List Tok)
  | 0, ts => some ([], ts)
  | n + 1, Tok.str t :: Tok.num k :: ts =>
    match decStrings k ts with
    | some (cats, rest) =>
      match decQuotes n rest with
      | some (qs, rest') => some (Quote.mk t cats :: qs, rest')
      | none => none
    | none => none
  | _ + 1, _ => none

/-- Deserialization of a whole database: a count followed by exactly
that many quotes and nothing else. -/
def decodeDb (ts : List Tok) : Option (List Quote) :=
  match ts with
  | Tok.num n :: rest =>
    match decQuotes n rest with
    | some (qs, []) => some qs
    | _ => none
  | _ => none

/-- Modelled from the spec: the persisted file as found at startup —
either missing/unreadable, or readable with some token content. -/
inductive FileState where
  | missing
  | contents (ts : List Tok)

/-- Modelled from the spec: `read_db` (`db.rs`, not under `src/`), §4.2
Load: reads the persisted file and deserializes it; missing, unreadable
or malformed content is an error (recovered by the caller). -/
def readDb (f : FileState) : Except String (List Quote) :=
  match f with
  | FileState.missing => Except.error "could not read file"
  | FileState.contents ts =>
    match decodeDb ts with
    | some qs => Except.ok qs
    | none => Except.error "malformed content"

/-! ### The application (`eq_app.rs`) -/

/-- Embeds `CurrentAppState` (`eq_app.rs:13-17`). -/
inductive CurrentAppState where
  | quoteCategories
  | quoteEntry (currentText : String)
  | search (currentSearchTerm : String)
deriving DecidableEq

/-- Embeds `EnglishQuotesApp` (`eq_app.rs:19-24`). -/
structure EnglishQuotesApp where
  currentState : CurrentAppState
  currentDb : List Quote
  currentChecked : List Bool
  quoteSettings : Option Quote
deriving DecidableEq

/-- Embeds `EnglishQuotesApp::default` (`eq_app.rs:26-38`): the initial
state, with the database read from disk, falling back to `vec![]` with
a logged warning on any read error.  The second component is the
warning channel (`warn!`), `none` when no warning was emitted. -/
def defaultApp (f : FileState) : EnglishQuotesApp × Option String :=
  match readDb f with
  | Except.ok db =>
    (⟨CurrentAppState.quoteCategories, db,
      List.replicate ALL_PERMS.length false, none⟩, none)
  | Except.error e =>
    (⟨CurrentAppState.quoteCategories, [],
      List.replicate ALL_PERMS.length false, none⟩,
     some ("Unable to read database for EQ App: " ++ e))

/-- One user interaction the `update` loop (`eq_app.rs:41-204`) reacts
to: the side-panel buttons, the Quote Settings dialog buttons, clicking
a quote in a list (the `display_quotes_list` callback), the Submit
button, and editing the text field. -/
inductive Event where
  | clickAllQuotes
  | clickQuoteEntry
  | clickSearch
  | selectQuote (q : Quote)
  | clickDelete
  | clickEdit
  | clickCancel
  | clickSubmit
  | editText (s : String)
deriving DecidableEq

/-- Embeds one pass of `EnglishQuotesApp::update` (`eq_app.rs:41-204`)
reacting to a single user interaction. -/
def step (app : EnglishQuotesApp) : Event → EnglishQuotesApp
  | Event.clickAllQuotes =>
    { app with currentState := CurrentAppState.quoteCategories }
  | Event.clickQuoteEntry =>
    { app with currentState := CurrentAppState.quoteEntry "" }
  | Event.clickSearch =>
    { app with currentState := CurrentAppState.search "" }
  | Event.selectQuote q => { app with quoteSettings := some q }
  | Event.clickDelete =>
    match app.quoteSettings with
    | some q =>
      { app with currentDb := removeQuote q app.currentDb,
                 quoteSettings := none }
    | none => app
  | Event.clickEdit =>
    match app.quoteSettings with
    | some q =>
      { app with currentDb := removeQuote q app.currentDb,
                 currentState := CurrentAppState.quoteEntry q.text,
                 currentChecked := reverseChosenTypes q.cats,
                 quoteSettings := none }
    | none => app
  | Event.clickCancel => { app with quoteSettings := none }
  | Event.clickSubmit =>
    match app.currentState with
    | CurrentAppState.quoteEntry t =>
      { app with
          currentDb := submitQuote t app.currentChecked app.currentDb,
          currentState := CurrentAppState.quoteEntry "" }
    | _ => app
  | Event.editText s =>
    match app.currentState with
    | CurrentAppState.quoteEntry _ =>
      { app with currentState := CurrentAppState.quoteEntry s }
    | CurrentAppState.search _ =>
      { app with currentState := CurrentAppState.search s }
    | CurrentAppState.quoteCategories => app

/-- Embeds `EnglishQuotesApp::on_exit` (`eq_app.rs:206-220`): sort the
database in place, then serialize it and write it to the database
file.  Returns the final in-memory state and the written file. -/
def onExit (app : EnglishQuotesApp) : EnglishQuotesApp × List Tok :=
  let db := sortList app.currentDb
  ({ app with currentDb := db }, encodeDb db)

/-! ### Helper lemmas -/

theorem decStrings_encode :
    ∀ (ss : List String) (rest : List Tok),
      decStrings ss.length (ss.map Tok.str ++ rest) = some (ss, rest)
  | [], _ => rfl
  | s :: ss, rest => by
    simp [decStrings, decStrings_encode ss rest]

theorem decQuotes_encode :
    ∀ (qs : List Quote) (rest : List Tok),
      decQuotes qs.length ((qs.map encQuote).flatten ++ rest) = some (qs, rest)
  | [], _ => rfl
  | q :: qs, rest => by
    simp only [List.map_cons, List.flatten_cons, List.length_cons, encQuote,
      List.append_assoc, List.cons_append]
    simp [decQuotes, decStrings_encode, decQuotes_encode qs rest]

theorem decodeDb_encodeDb (db : List Quote) : decodeDb (encodeDb db) = some db := by
  have h := decQuotes_encode db []
  rw [List.append_nil] at h
  simp [decodeDb, encodeDb, h]

theorem removeQuote_length (q : Quote) :
    ∀ db : List Quote, q ∈ db → (removeQuote q db).length + 1 = db.length
  | [], h => absurd h (List.not_mem_nil q)
  | x :: xs, h => by
    by_cases hx : x = q
    · simp [removeQuote, hx]
    · have hmem : q ∈ xs := by
        cases List.mem_cons.mp h with
        | inl heq => exact absurd heq.symm hx
        | inr hm => exact hm
      simp [removeQuote, hx, removeQuote_length q xs hmem]

theorem worksLoop_eq_true_iff (q : Quote) :
    ∀ l : List String, worksLoop q l = true ↔ ∃ t ∈ l, t ∈ q.cats
  | [] => by simp [worksLoop]
  | t :: ts => by
    by_cases hm : t ∈ q.cats
    · have hc : q.cats.contains t = true := by
        simpa [List.contains] using hm
      simp only [worksLoop, hc, if_true, true_iff]
      exact ⟨t, List.mem_cons_self t ts, hm⟩
    · have hc : q.cats.contains t = false := by
        simp [List.contains, hm]
      simp only [worksLoop, hc, Bool.false_eq_true, if_false]
      rw [worksLoop_eq_true_iff q ts]
      constructor
      · rintro ⟨x, hx, hxc⟩
        exact ⟨x, List.mem_cons_of_mem t hx, hxc⟩
      · rintro ⟨x, hx, hxc⟩
        cases List.mem_cons.mp hx with
        | inl heq => exact absurd (heq ▸ hxc) hm
        | inr h' => exact ⟨x, h', hxc⟩

theorem strContainsB_correct :
    ∀ (pat hay : List Char), strContainsB pat hay = true ↔ pat <:+: hay
  | pat, [] => by
    rw [strContainsB, List.isPrefixOf_iff_prefix, List.prefix_nil, List.infix_nil]
  | pat, c :: t => by
    rw [strContainsB, Bool.or_eq_true, List.isPrefixOf_iff_prefix,
      strContainsB_correct pat t]
    exact List.infix_cons_iff.symm

theorem filter_of_zip_map {α : Type} (f : α → Bool) :
    ∀ l : List α,
      (((l.zip (l.map f)).filter fun p => p.2).map fun p => p.1) = l.filter f
  | [] => rfl
  | a :: l => by
    by_cases h : f a
    · simp [List.filter_cons, h, filter_of_zip_map f l]
    · simp [List.filter_cons, h, filter_of_zip_map f l]

theorem getChosenTypes_reverseChosenTypes (S : List String) :
    getChosenTypes (reverseChosenTypes S) = ALL_PERMS.filter fun c => S.contains c := by
  unfold getChosenTypes reverseChosenTypes
  exact filter_of_zip_map _ ALL_PERMS

theorem step_preserves_db (app : EnglishQuotesApp) (e : Event)
    (h₁ : e ≠ Event.clickSubmit) (h₂ : e ≠ Event.clickDelete)
    (h₃ : e ≠ Event.clickEdit) :
    (step app e).currentDb = app.currentDb := by
  obtain ⟨st, db, ch, qs⟩ := app
  cases e with
  | clickAllQuotes => rfl
  | clickQuoteEntry => rfl
  | clickSearch => rfl
  | selectQuote q => rfl
  | clickDelete => exact absurd rfl h₂
  | clickEdit => exact absurd rfl h₃
  | clickCancel => rfl
  | clickSubmit => exact absurd rfl h₁
  | editText s => cases st <;> rfl

theorem steps_preserve_db :
    ∀ (evs : List Event) (app : EnglishQuotesApp),
      (∀ e ∈ evs, e ≠ Event.clickSubmit ∧ e ≠ Event.clickDelete ∧
        e ≠ Event.clickEdit) →
      (List.foldl step app evs).currentDb = app.currentDb
  | [], _, _ => rfl
  | e :: evs, app, h => by
    have he := h e (List.mem_cons_self e evs)
    rw [List.foldl_cons,
      steps_preserve_db evs _ fun x hx => h x (List.mem_cons_of_mem e hx),
      step_preserves_db app e he.1 he.2.1 he.2.2]

/-! ### The claims -/

/-- C1: for every database, saving on controlled shutdown (`on_exit`
sorts the collection, then serializes it and writes the file) and then
loading the written file yields the sorted database:
`Load(Save(db)) == Sort(db)`. -/
theorem claim_C1_save_load_roundtrip (app : EnglishQuotesApp) :
    readDb (FileState.contents (onExit app).2)
      = Except.ok (sortList app.currentDb)
    ∧ (defaultApp (FileState.contents (onExit app).2)).1.currentDb
      = sortList app.currentDb := by
  have h : readDb (FileState.contents (onExit app).2)
      = Except.ok (sortList app.currentDb) := by
    simp [onExit, readDb, decodeDb_encodeDb]
  exact ⟨h, by simp [defaultApp, h]⟩

/-- C2: filtering by categories yields exactly the quotes whose
category set intersects `wanted`, in database order; an empty `wanted`
yields nothing, and a quote with zero categories never appears in any
filtered view. -/
theorem claim_C2_filter_by_categories (db : List Quote) (wanted : List String) :
    filterByCategories db wanted
      = db.filter (fun q => decide (∃ t ∈ wanted, t ∈ q.cats))
    ∧ filterByCategories db [] = []
    ∧ ∀ q ∈ filterByCategories db wanted, q.cats ≠ [] := by
  refine ⟨?_, ?_, ?_⟩
  · apply List.filter_congr
    intro q _
    rw [Bool.eq_iff_iff, worksLoop_eq_true_iff, decide_eq_true_eq]
  · exact List.filter_eq_nil_iff.mpr fun q _ => by simp [worksLoop]
  · intro q hq hcats
    have hw := (List.mem_filter.mp hq).2
    obtain ⟨t, _, ht⟩ := (worksLoop_eq_true_iff q wanted).mp hw
    rw [hcats] at ht
    exact List.not_mem_nil t ht

/-- C2 witness: the characterization evaluated at a concrete database
and category set. -/
theorem claim_C2_witness :
    filterByCategories [Quote.mk "Be yourself" ["Wisdom"]] ["Wisdom"]
      = [Quote.mk "Be yourself" ["Wisdom"]].filter
          (fun q => decide (∃ t ∈ ["Wisdom"], t ∈ q.cats)) :=
  (claim_C2_filter_by_categories [Quote.mk "Be yourself" ["Wisdom"]] ["Wisdom"]).1

/-- C3: searching yields exactly the quotes whose text contains the
term as a case-sensitive contiguous substring, in database order; the
empty term yields the whole collection. -/
theorem claim_C3_search_substring (db : List Quote) (term : String) :
    searchQuotes db term
      = db.filter (fun q => decide (term.data <:+: q.text.data))
    ∧ searchQuotes db "" = db := by
  constructor
  · apply List.filter_congr
    intro q _
    rw [Bool.eq_iff_iff, strContainsB_correct, decide_eq_true_eq]
  · refine List.filter_eq_self.mpr fun q _ => ?_
    rw [strContainsB_correct]
    exact List.nil_infix

/-- C4: Sort is idempotent: `Sort(Sort(db)) == Sort(db)`. -/
theorem claim_C4_sort_idempotent (db : List Quote) :
    sortList (sortList db) = sortList db :=
  List.Sorted.insertionSort_eq (List.sorted_insertionSort quoteLe db)

/-- C5: Load never aborts: whenever reading the persisted file fails
(missing, unreadable or malformed), the startup state falls back to the
empty database and emits a recoverable warning. -/
theorem claim_C5_load_recovers (f : FileState) (e : String)
    (h : readDb f = Except.error e) :
    (defaultApp f).1.currentDb = []
    ∧ (defaultApp f).2
      = some ("Unable to read database for EQ App: " ++ e) := by
  simp [defaultApp, h]

/-- C5 witness: a malformed token stream is rejected by `readDb` and
recovered as the empty database with a warning. -/
theorem claim_C5_witness :
    readDb (FileState.contents [Tok.str "x"]) = Except.error "malformed content"
    ∧ (defaultApp (FileState.contents [Tok.str "x"])).1.currentDb = []
    ∧ (defaultApp (FileState.contents [Tok.str "x"])).2
      = some ("Unable to read database for EQ App: " ++ "malformed content") :=
  ⟨rfl,
   (claim_C5_load_recovers (FileState.contents [Tok.str "x"]) "malformed content" rfl).1,
   (claim_C5_load_recovers (FileState.contents [Tok.str "x"]) "malformed content" rfl).2⟩

/-- C6 counterexample: submitting a whitespace-only entry inserts a
quote whose text is empty after trimming — the Submit handler performs
no non-emptiness check. -/
theorem claim_C6_counterexample :
    submitQuote "   " [false, false] [] = [Quote.mk "" []] := by decide

/-- C6 amended: the Submit handler trims whitespace from the entered
text but does not enforce non-emptiness: it unconditionally inserts
exactly one quote, whose text is the trimmed input (possibly empty). -/
theorem claim_C6_amended (t : String) (checked : List Bool) (db : List Quote) :
    (submitQuote t checked db).length = db.length + 1
    ∧ Quote.mk (rustTrim t) (getChosenTypes checked) ∈ submitQuote t checked db := by
  unfold submitQuote sortList addQuoteToDb
  constructor
  · rw [List.length_insertionSort]
    simp
  · rw [List.mem_insertionSort]
    simp

/-- C7 counterexample: adding the same quote twice and sorting leaves
both copies in the database — the sort pass does not deduplicate. -/
theorem claim_C7_counterexample :
    sortList (addQuoteToDb (Quote.mk "a" []) (addQuoteToDb (Quote.mk "a" []) []))
      = [Quote.mk "a" [], Quote.mk "a" []] := by decide

/-- C7 amended: Sort is a pure permutation and never collapses
duplicates: it preserves the multiplicity of every quote, so a quote
added twice still occurs twice after Sort. -/
theorem claim_C7_amended (q : Quote) (db : List Quote) :
    (sortList db).count q = db.count q
    ∧ (sortList (addQuoteToDb q db)).count q = db.count q + 1 := by
  constructor
  · exact (List.perm_insertionSort quoteLe db).count_eq q
  · rw [sortList, (List.perm_insertionSort quoteLe _).count_eq q]
    simp [addQuoteToDb]

/-- C8: the two selection conversions are mutually inverse: for every
category set `S` drawn from `ALL_PERMS`,
`to_category_set(to_selection(S))` equals `S` as a set (it is a
permutation of `S`, listed in `ALL_PERMS` order). -/
theorem claim_C8_selection_roundtrip (S : List String) (h₁ : S.Nodup)
    (h₂ : ∀ c ∈ S, c ∈ ALL_PERMS) :
    List.Perm (getChosenTypes (reverseChosenTypes S)) S := by
  rw [getChosenTypes_reverseChosenTypes]
  refine (List.perm_ext_iff_of_nodup (ALL_PERMS_nodup.filter _) h₁).mpr fun a => ?_
  simp only [List.mem_filter, List.contains, List.elem_eq_mem, decide_eq_true_eq]
  exact ⟨fun h => h.2, fun h => ⟨h₂ a h, h⟩⟩

/-- C8 witness: the round-trip evaluated at the concrete category set
`{Motivation}`. -/
theorem claim_C8_witness :
    List.Perm (getChosenTypes (reverseChosenTypes ["Motivation"])) ["Motivation"] :=
  claim_C8_selection_roundtrip ["Motivation"] (by decide) (by decide)

/-- C9: Add appends the quote at the end of the collection, the
collection grows by exactly one element, and no deduplication is
performed at add-time (the multiplicity of the added quote always
increases by one, also when a structurally-equal quote is present). -/
theorem claim_C9_add_appends (q : Quote) (db : List Quote) :
    addQuoteToDb q db = db ++ [q]
    ∧ (addQuoteToDb q db).length = db.length + 1
    ∧ (addQuoteToDb q db).count q = db.count q + 1 := by
  refine ⟨rfl, by simp [addQuoteToDb], by simp [addQuoteToDb]⟩

/-- C10: clicking "Edit Quote" immediately removes the selected quote
from the in-memory database; any sequence of interactions that avoids
Submit (and the other two removal buttons) leaves the database one
element smaller, and only pressing Submit re-inserts the (trimmed)
quote. -/
theorem claim_C10_edit_removes (app : EnglishQuotesApp) (q : Quote)
    (hs : app.quoteSettings = some q) (hq : q ∈ app.currentDb) :
    (step app Event.clickEdit).currentDb = removeQuote q app.currentDb
    ∧ (step app Event.clickEdit).currentDb.length + 1 = app.currentDb.length
    ∧ (∀ evs : List Event,
        (∀ e ∈ evs, e ≠ Event.clickSubmit ∧ e ≠ Event.clickDelete ∧
          e ≠ Event.clickEdit) →
        (List.foldl step (step app Event.clickEdit) evs).currentDb
          = removeQuote q app.currentDb)
    ∧ (step (step app Event.clickEdit) Event.clickSubmit).currentDb
        = submitQuote q.text (reverseChosenTypes q.cats)
            (removeQuote q app.currentDb) := by
  obtain ⟨st, db, ch, qs⟩ := app
  cases hs
  refine ⟨rfl, ?_, ?_, rfl⟩
  · exact removeQuote_length q db hq
  · intro evs h
    rw [steps_preserve_db evs _ h]
    rfl

/-- C10 witness: the removal evaluated at a concrete application state
holding one quote, with that quote selected in the settings dialog. -/
theorem claim_C10_witness :
    (step ⟨CurrentAppState.quoteCategories, [Quote.mk "a" ["Wisdom"]],
        [false, false], some (Quote.mk "a" ["Wisdom"])⟩ Event.clickEdit).currentDb
      = removeQuote (Quote.mk "a" ["Wisdom"]) [Quote.mk "a" ["Wisdom"]]
    ∧ (step ⟨CurrentAppState.quoteCategories, [Quote.mk "a" ["Wisdom"]],
        [false, false], some (Quote.mk "a" ["Wisdom"])⟩ Event.clickEdit).currentDb.length + 1
      = 1 :=
  ⟨(claim_C10_edit_removes _ (Quote.mk "a" ["Wisdom"]) rfl (by decide)).1,
   (claim_C10_edit_removes _ (Quote.mk "a" ["Wisdom"]) rfl (by decide)).2.1⟩

end EnglishQuotes
